import Mathlib

/-!
Verification of the libjxl-tiny entropy-coding back end.

The definitions below are a shallow embedding of the C++ sources:
`encoder/histogram.h` (Histogram, HistogramBuilder), the offline
prefix-code extension tool (`ExtendPrefixCode`, `GenerateNewPrefixCodes`,
`main`), and, where the corresponding implementation files are not part
of the excerpted sources, models built from the design document
(`UintCoder`, `CreateHuffmanTree`, `ConvertBitDepthsToSymbols`, the
static prefix-code tables, and the entropy writer).  Machine integers
are modelled as `Nat` (the counters only ever increase and stay far
below their machine bounds in the modelled regime); `std::vector`
becomes `List`; fallible operations and runtime check failures become
`Option` and explicit success flags.
-/

namespace Jxl

/-! ## List helper lemmas -/

theorem getD_replicate_zero (k i : Nat) : (List.replicate k (0 : Nat)).getD i 0 = 0 := by
  induction k generalizing i with
  | zero => simp [List.getD]
  | succ k ih =>
    cases i with
    | zero => simp [List.replicate]
    | succ i => simpa [List.replicate] using ih i

theorem getD_append_replicate_zero (l : List Nat) (k i : Nat) :
    ((l ++ List.replicate k (0 : Nat)).getD i 0) = l.getD i 0 := by
  induction l generalizing i with
  | nil => simpa using getD_replicate_zero k i
  | cons x xs ih =>
    cases i with
    | zero => rfl
    | succ i => simpa using ih i

theorem take_eq_self_of_le (l : List Nat) (n : Nat) (h : l.length ≤ n) : l.take n = l := by
  induction l generalizing n with
  | nil => simp
  | cons x xs ih =>
    cases n with
    | zero => simp at h
    | succ n =>
      simp only [List.take]
      rw [ih n (by simpa using h)]

theorem sum_replicate_zero (k : Nat) : (List.replicate k (0 : Nat)).sum = 0 := by
  induction k with
  | zero => rfl
  | succ k ih => simpa [List.replicate] using ih

theorem getD_eq_zero_of_len_le (l : List Nat) (i : Nat) (h : l.length ≤ i) :
    l.getD i 0 = 0 := by
  induction l generalizing i with
  | nil => simp [List.getD]
  | cons x xs ih =>
    cases i with
    | zero => simp at h
    | succ i => simpa using ih i (by simpa using h)

theorem getD_set_self (l : List Nat) (i v : Nat) (h : i < l.length) :
    (l.set i v).getD i 0 = v := by
  induction l generalizing i with
  | nil => simp at h
  | cons x xs ih =>
    cases i with
    | zero => rfl
    | succ i => simpa using ih i (by simpa using h)

theorem getD_set_ne (l : List Nat) (i j v : Nat) (h : j ≠ i) :
    (l.set i v).getD j 0 = l.getD j 0 := by
  induction l generalizing i j with
  | nil => simp [List.set]
  | cons x xs ih =>
    cases i with
    | zero =>
      cases j with
      | zero => exact absurd rfl h
      | succ j => rfl
    | succ i =>
      cases j with
      | zero => rfl
      | succ j => simpa using ih i j (fun hne => h (by simp [hne]))

theorem sum_set_add (l : List Nat) (i v : Nat) (h : i < l.length) :
    (l.set i v).sum + l.getD i 0 = l.sum + v := by
  induction l generalizing i with
  | nil => simp at h
  | cons x xs ih =>
    cases i with
    | zero => simp [List.set]; omega
    | succ i =>
      have := ih i (by simpa using h)
      simp only [List.set, List.sum_cons, List.getD_cons_succ]
      omega

/-! ## Histogram (encoder/histogram.h)

`struct Histogram` holds a growable `std::vector<int32_t> data_` and a
`size_t total_count_`.  The counters are only ever incremented by the
operations modelled here, so both are embedded as `Nat`. -/

/-- `DivCeil` from `encoder/common.h` (header not among the excerpted
sources): ceiling division, `(a + b - 1) / b`. -/
def divCeil (a b : Nat) : Nat := (a + b - 1) / b

/-- `Histogram::kRounding`. -/
def kRounding : Nat := 8

/-- `std::vector::resize(n)` with zero value-initialisation: truncate to
`n` elements, padding with zeros when growing. -/
def listResize (l : List Nat) (n : Nat) : List Nat :=
  l.take n ++ List.replicate (n - l.length) 0

structure Histogram where
  data : List Nat
  total_count : Nat
deriving Repr, DecidableEq

/-- The state of a freshly constructed `Histogram()`. -/
def Histogram.init : Histogram := ⟨[], 0⟩

/-- `Histogram::Clear`. -/
def Histogram.clear (_h : Histogram) : Histogram := ⟨[], 0⟩

/-- `Histogram::Add`: grow `data_` to `DivCeil(symbol + 1, kRounding) *
kRounding` when `symbol` is out of range, then increment `data_[symbol]`
and `total_count_`. -/
def Histogram.add (h : Histogram) (symbol : Nat) : Histogram :=
  let d := if h.data.length ≤ symbol
    then listResize h.data (divCeil (symbol + 1) kRounding * kRounding)
    else h.data
  ⟨d.set symbol (d.getD symbol 0 + 1), h.total_count + 1⟩

/-- Element-wise addition of `other.data_` into `data_`
(the loop `for i < other.data_.size(): data_[i] += other.data_[i]`,
with `data_` already at least as long as `other.data_`). -/
def addVec : List Nat → List Nat → List Nat
  | d, [] => d
  | [], _ :: _ => []
  | x :: d, y :: o => (x + y) :: addVec d o

/-- `Histogram::AddHistogram`: grow to `other.data_.size()` if larger,
add counts element-wise, add the totals. -/
def Histogram.addHistogram (h other : Histogram) : Histogram :=
  let d := if other.data.length > h.data.length
    then listResize h.data other.data.length
    else h.data
  ⟨addVec d other.data, h.total_count + other.total_count⟩

/-! ### Histogram lemmas -/

theorem listResize_length (l : List Nat) (n : Nat) (h : l.length ≤ n) :
    (listResize l n).length = n := by
  unfold listResize
  rw [take_eq_self_of_le l n h]
  simp; omega

theorem listResize_getD (l : List Nat) (n i : Nat) (h : l.length ≤ n) :
    (listResize l n).getD i 0 = l.getD i 0 := by
  unfold listResize
  rw [take_eq_self_of_le l n h]
  exact getD_append_replicate_zero l _ i

theorem listResize_sum (l : List Nat) (n : Nat) (h : l.length ≤ n) :
    (listResize l n).sum = l.sum := by
  unfold listResize
  rw [take_eq_self_of_le l n h]
  simp [sum_replicate_zero]

theorem divCeil_mul_facts (b : Nat) :
    b + 1 ≤ divCeil (b + 1) kRounding * kRounding ∧
    divCeil (b + 1) kRounding * kRounding ≤ b + kRounding ∧
    divCeil (b + 1) kRounding * kRounding % kRounding = 0 := by
  unfold divCeil kRounding
  have h1 : (b + 8) % 8 < 8 := Nat.mod_lt _ (by decide)
  have h2 : (b + 8) / 8 * 8 + (b + 8) % 8 = b + 8 := Nat.div_add_mod' (b + 8) 8
  refine ⟨by omega, by omega, ?_⟩
  simp [Nat.mul_mod_left]

/-- The length of `data_` after `Add`. -/
theorem add_length (h : Histogram) (b : Nat) :
    (h.add b).data.length =
      if h.data.length ≤ b then divCeil (b + 1) kRounding * kRounding
      else h.data.length := by
  unfold Histogram.add
  by_cases hb : h.data.length ≤ b
  · have hle : h.data.length ≤ divCeil (b + 1) kRounding * kRounding := by
      have := (divCeil_mul_facts b).1
      omega
    simp [hb, listResize_length _ _ hle]
  · simp [hb]

theorem add_data_length_lt (h : Histogram) (b : Nat) :
    b < (h.add b).data.length := by
  rw [add_length]
  by_cases hb : h.data.length ≤ b
  · have := (divCeil_mul_facts b).1
    simp [hb]; omega
  · simp [hb]; omega

theorem add_getD_self (h : Histogram) (b : Nat) :
    (h.add b).data.getD b 0 = h.data.getD b 0 + 1 := by
  unfold Histogram.add
  by_cases hb : h.data.length ≤ b
  · have hle : h.data.length ≤ divCeil (b + 1) kRounding * kRounding := by
      have := (divCeil_mul_facts b).1
      omega
    have hlt : b < (listResize h.data (divCeil (b + 1) kRounding * kRounding)).length := by
      rw [listResize_length _ _ hle]
      have := (divCeil_mul_facts b).1
      omega
    simp only [hb, if_true]
    rw [getD_set_self _ _ _ hlt, listResize_getD _ _ _ hle]
  · simp only [hb, if_false]
    rw [getD_set_self _ _ _ (by omega)]

theorem add_getD_ne (h : Histogram) (b i : Nat) (hi : i ≠ b) :
    (h.add b).data.getD i 0 = h.data.getD i 0 := by
  unfold Histogram.add
  by_cases hb : h.data.length ≤ b
  · have hle : h.data.length ≤ divCeil (b + 1) kRounding * kRounding := by
      have := (divCeil_mul_facts b).1
      omega
    simp only [hb, if_true]
    rw [getD_set_ne _ _ _ _ hi, listResize_getD _ _ _ hle]
  · simp only [hb, if_false]
    rw [getD_set_ne _ _ _ _ hi]

theorem add_total (h : Histogram) (b : Nat) :
    (h.add b).total_count = h.total_count + 1 := rfl

theorem add_sum (h : Histogram) (b : Nat) :
    (h.add b).data.sum = h.data.sum + 1 := by
  unfold Histogram.add
  by_cases hb : h.data.length ≤ b
  · have hle : h.data.length ≤ divCeil (b + 1) kRounding * kRounding := by
      have := (divCeil_mul_facts b).1
      omega
    have hlt : b < (listResize h.data (divCeil (b + 1) kRounding * kRounding)).length := by
      rw [listResize_length _ _ hle]
      have := (divCeil_mul_facts b).1
      omega
    simp only [hb, if_true]
    have := sum_set_add (listResize h.data (divCeil (b + 1) kRounding * kRounding)) b
      ((listResize h.data (divCeil (b + 1) kRounding * kRounding)).getD b 0 + 1) hlt
    rw [listResize_sum _ _ hle] at this
    omega
  · simp only [hb, if_false]
    have := sum_set_add h.data b (h.data.getD b 0 + 1) (by omega)
    omega

theorem addVec_length (d o : List Nat) (h : o.length ≤ d.length) :
    (addVec d o).length = d.length := by
  induction d generalizing o with
  | nil =>
    cases o with
    | nil => rfl
    | cons y ys => simp at h
  | cons x xs ih =>
    cases o with
    | nil => rfl
    | cons y ys => simp [addVec]; exact ih ys (by simpa using h)

theorem addVec_getD (d o : List Nat) (i : Nat) (h : o.length ≤ d.length) :
    (addVec d o).getD i 0 = d.getD i 0 + o.getD i 0 := by
  induction d generalizing o i with
  | nil =>
    cases o with
    | nil => simp [addVec, List.getD]
    | cons y ys => simp at h
  | cons x xs ih =>
    cases o with
    | nil => simp [addVec, List.getD]
    | cons y ys =>
      cases i with
      | zero => rfl
      | succ i => simpa [addVec] using ih ys i (by simpa using h)

theorem addVec_sum (d o : List Nat) (h : o.length ≤ d.length) :
    (addVec d o).sum = d.sum + o.sum := by
  induction d generalizing o with
  | nil =>
    cases o with
    | nil => rfl
    | cons y ys => simp at h
  | cons x xs ih =>
    cases o with
    | nil => simp [addVec]
    | cons y ys =>
      have := ih ys (by simpa using h)
      simp [addVec, this]
      omega

theorem addHistogram_length (h o : Histogram) :
    (h.addHistogram o).data.length = max h.data.length o.data.length := by
  unfold Histogram.addHistogram
  by_cases hl : o.data.length > h.data.length
  · have hle : h.data.length ≤ o.data.length := by omega
    simp only [hl, if_true]
    rw [addVec_length _ _ (by rw [listResize_length _ _ hle]), listResize_length _ _ hle]
    omega
  · simp only [hl, if_false]
    rw [addVec_length _ _ (by omega)]
    omega

theorem addHistogram_getD (h o : Histogram) (i : Nat) :
    (h.addHistogram o).data.getD i 0 = h.data.getD i 0 + o.data.getD i 0 := by
  unfold Histogram.addHistogram
  by_cases hl : o.data.length > h.data.length
  · have hle : h.data.length ≤ o.data.length := by omega
    simp only [hl, if_true]
    rw [addVec_getD _ _ _ (by rw [listResize_length _ _ hle]), listResize_getD _ _ _ hle]
  · simp only [hl, if_false]
    rw [addVec_getD _ _ _ (by omega)]

theorem addHistogram_total (h o : Histogram) :
    (h.addHistogram o).total_count = h.total_count + o.total_count := rfl

theorem addHistogram_sum (h o : Histogram) :
    (h.addHistogram o).data.sum = h.data.sum + o.data.sum := by
  unfold Histogram.addHistogram
  by_cases hl : o.data.length > h.data.length
  · have hle : h.data.length ≤ o.data.length := by omega
    simp only [hl, if_true]
    rw [addVec_sum _ _ (by rw [listResize_length _ _ hle]), listResize_sum _ _ hle]
  · simp only [hl, if_false]
    rw [addVec_sum _ _ (by omega)]

/-! ### Sequences of histogram operations -/

/-- One histogram operation: `Add(bucket)` or `AddHistogram(other)`. -/
inductive HistOp where
  | add (b : Nat)
  | merge (o : Histogram)
deriving Repr

def applyOp (h : Histogram) : HistOp → Histogram
  | .add b => h.add b
  | .merge o => h.addHistogram o

def applyOps (h : Histogram) (ops : List HistOp) : Histogram :=
  ops.foldl applyOp h

/-- The histogram invariant: the running total equals the sum of the
per-bucket counts. -/
def histInv (h : Histogram) : Prop := h.total_count = h.data.sum

instance : DecidablePred histInv :=
  fun h => inferInstanceAs (Decidable (h.total_count = h.data.sum))

/-- The side condition on operations: a merged histogram must itself
satisfy the invariant. -/
def opOK : HistOp → Prop
  | .add _ => True
  | .merge o => histInv o

instance : DecidablePred opOK := fun op =>
  match op with
  | .add _ => isTrue trivial
  | .merge o => inferInstanceAs (Decidable (histInv o))

theorem histInv_applyOp (h : Histogram) (op : HistOp) (hh : histInv h) (hop : opOK op) :
    histInv (applyOp h op) := by
  cases op with
  | add b =>
    unfold histInv at *
    rw [applyOp, add_total, add_sum, hh]
  | merge o =>
    unfold histInv opOK at *
    rw [applyOp, addHistogram_total, addHistogram_sum, hh, hop]

theorem histInv_applyOps (ops : List HistOp) (h : Histogram) (hh : histInv h)
    (hops : ∀ op ∈ ops, opOK op) : histInv (applyOps h ops) := by
  induction ops generalizing h with
  | nil => exact hh
  | cons op ops ih =>
    exact ih (applyOp h op) (histInv_applyOp h op hh (hops op (by simp)))
      (fun o ho => hops o (by simp [ho]))

theorem applyOp_mono (h : Histogram) (op : HistOp) (i : Nat) :
    h.data.getD i 0 ≤ (applyOp h op).data.getD i 0 := by
  cases op with
  | add b =>
    rw [applyOp]
    by_cases hi : i = b
    · subst hi; rw [add_getD_self]; omega
    · rw [add_getD_ne _ _ _ hi]
  | merge o =>
    rw [applyOp, addHistogram_getD]
    omega

/-- C3.  Starting from a freshly constructed (or `Clear`-ed) histogram,
after any sequence of `Add`/`AddHistogram` operations in which every
merged histogram itself satisfies the invariant, `total_count` equals the
sum of the counts array; moreover no single operation ever decreases any
existing count, and `Clear` produces exactly the fresh state. -/
theorem c3_histogram_invariant (ops : List HistOp) (hops : ∀ op ∈ ops, opOK op) :
    histInv (applyOps Histogram.init ops) ∧
    (∀ h : Histogram, h.clear = Histogram.init) ∧
    (∀ (h : Histogram) (op : HistOp) (i : Nat),
      h.data.getD i 0 ≤ (applyOp h op).data.getD i 0) := by
  refine ⟨histInv_applyOps ops Histogram.init rfl hops, fun _ => rfl, applyOp_mono⟩

/-- Witness for C3 at a concrete operation sequence. -/
theorem c3_histogram_invariant_witness :
    histInv (applyOps Histogram.init
      [HistOp.add 3, HistOp.merge ⟨[2, 0, 5], 7⟩, HistOp.add 12]) := by
  have h := c3_histogram_invariant
    [HistOp.add 3, HistOp.merge ⟨[2, 0, 5], 7⟩, HistOp.add 12] (by decide)
  exact h.1

/-- C4.  `Histogram::Add(b)`: when `b` is beyond the current array the
array grows to the next multiple of `kRounding = 8` at least `b + 1`
(new slots zero), `counts[b]` and `total_count` are incremented by one,
every other entry is unchanged, and the array never shrinks. -/
theorem c4_add_behavior (h : Histogram) (b : Nat) :
    ((h.add b).data.length % kRounding = 0 ∨ ¬ h.data.length ≤ b) ∧
    (h.data.length ≤ b →
      b + 1 ≤ (h.add b).data.length ∧ (h.add b).data.length ≤ b + kRounding ∧
      (h.add b).data.length % kRounding = 0) ∧
    (¬ h.data.length ≤ b → (h.add b).data.length = h.data.length) ∧
    (h.add b).data.getD b 0 = h.data.getD b 0 + 1 ∧
    (∀ i, i ≠ b → (h.add b).data.getD i 0 = h.data.getD i 0) ∧
    (h.add b).total_count = h.total_count + 1 ∧
    h.data.length ≤ (h.add b).data.length := by
  have hfacts := divCeil_mul_facts b
  have hlen := add_length h b
  refine ⟨?_, ?_, ?_, add_getD_self h b, fun i hi => add_getD_ne h b i hi,
    add_total h b, ?_⟩
  · by_cases hb : h.data.length ≤ b
    · left; rw [hlen]; simp [hb]
    · right; exact hb
  · intro hb
    rw [hlen]; simp only [hb, if_true]
    exact ⟨hfacts.1, hfacts.2.1, hfacts.2.2⟩
  · intro hb
    rw [hlen]; simp [hb]
  · rw [hlen]
    by_cases hb : h.data.length ≤ b
    · simp only [hb, if_true]; omega
    · simp [hb]

/-- Witness for C4 at a concrete histogram and bucket. -/
theorem c4_add_behavior_witness :
    (Histogram.add ⟨[4, 4], 8⟩ 9).data.getD 9 0 = 1 ∧
    (Histogram.add ⟨[4, 4], 8⟩ 9).data.length = 16 ∧
    (Histogram.add ⟨[4, 4], 8⟩ 9).total_count = 9 := by
  have h := c4_add_behavior ⟨[4, 4], 8⟩ 9
  refine ⟨?_, by decide, h.2.2.2.2.2.1⟩
  have := h.2.2.2.1
  simpa using this

/-- C5.  `Histogram::AddHistogram(other)`: the array grows to
`max(len, other.len)`, entries are added element-wise (treating missing
entries as zero), and the totals are added. -/
theorem c5_merge_behavior (h o : Histogram) :
    (h.addHistogram o).data.length = max h.data.length o.data.length ∧
    (∀ i, (h.addHistogram o).data.getD i 0 = h.data.getD i 0 + o.data.getD i 0) ∧
    (h.addHistogram o).total_count = h.total_count + o.total_count :=
  ⟨addHistogram_length h o, fun i => addHistogram_getD h o i, addHistogram_total h o⟩

/-- Witness for C5 at concrete histograms. -/
theorem c5_merge_behavior_witness :
    (Histogram.addHistogram ⟨[1, 2], 3⟩ ⟨[0, 1, 1], 2⟩).data.length = 3 ∧
    (Histogram.addHistogram ⟨[1, 2], 3⟩ ⟨[0, 1, 1], 2⟩).data.getD 1 0 = 3 ∧
    (Histogram.addHistogram ⟨[1, 2], 3⟩ ⟨[0, 1, 1], 2⟩).total_count = 5 := by
  have h := c5_merge_behavior ⟨[1, 2], 3⟩ ⟨[0, 1, 1], 2⟩
  exact ⟨h.1, h.2.1 1, h.2.2⟩

/-! ## Token model (encoder/token.h) -/

/-- A `Token` as produced by the upstream stages: a non-negative value
and a context id. -/
structure Token where
  value : Nat
  context : Nat
deriving Repr, DecidableEq

/-- Modelled from the spec: the implementation of `UintCoder::Encode`
(`encoder/token.h`) is not among the excerpted sources.  Per the design
document, small values map one-to-one to low buckets with no extra
bits, and larger values are represented by an exponential-class bucket
plus that class's offset carried in raw extra bits.  Returns
`(bucket, extra_bit_count, extra_bits)`. -/
def uintEncode (value : Nat) : Nat × Nat × Nat :=
  if value < 16 then (value, 0, 0)
  else (12 + Nat.log2 value, Nat.log2 value, value - 2 ^ Nat.log2 value)

/-- Modelled from the spec: the exact inverse of `uintEncode`, taking
the bucket and the extra bits. -/
def uintDecode (bucket : Nat) (bits : Nat) : Nat :=
  if bucket < 16 then bucket else 2 ^ (bucket - 12) + bits

/-- C2.  The token model is an exact round trip on every `u32` value:
decoding the triple produced by `Encode` yields the value back
(`Encode` is a total function, so it is deterministic and has no error
conditions). -/
theorem c2_token_round_trip (v : Nat) (_hv : v < 2 ^ 32) :
    uintDecode (uintEncode v).1 (uintEncode v).2.2 = v := by
  unfold uintEncode uintDecode
  by_cases h : v < 16
  · simp [h]
  · have hv0 : v ≠ 0 := by omega
    have h16 : 2 ^ 4 ≤ v := by omega
    have hlog4 : 4 ≤ Nat.log2 v := (Nat.le_log2 hv0).mpr h16
    have hpow : 2 ^ Nat.log2 v ≤ v := (Nat.le_log2 hv0).mp (Nat.le_refl _)
    simp only [h, if_false]
    have hb : ¬ 12 + Nat.log2 v < 16 := by omega
    simp only [hb, if_false]
    have : 12 + Nat.log2 v - 12 = Nat.log2 v := by omega
    rw [this]
    omega

/-- Witness for C2 at a concrete value. -/
theorem c2_token_round_trip_witness :
    uintDecode (uintEncode 1000000).1 (uintEncode 1000000).2.2 = 1000000 :=
  c2_token_round_trip 1000000 (by norm_num)

/-! ## HistogramBuilder (encoder/histogram.h) -/

/-- `struct HistogramBuilder`: an optional static context map (a raw
`const uint8_t*` in the source, modelled as a total function on raw
context ids) and one histogram per context. -/
structure HistogramBuilder where
  static_context_map : Option (Nat → Nat)
  histograms : List Histogram

/-- `HistogramBuilder::Add(symbol, context)`: `JXL_CHECK(context <
histograms.size())` — a failed check aborts the process, modelled as
`none` — then `histograms[context].Add(symbol)`. -/
def builderAddSym (b : HistogramBuilder) (symbol context : Nat) : Option HistogramBuilder :=
  if context < b.histograms.length then
    some ⟨b.static_context_map,
      b.histograms.set context ((b.histograms.getD context Histogram.init).add symbol)⟩
  else none

/-- The context id a token resolves to: through the static context map
when present, the raw context id otherwise. -/
def resolveContext (b : HistogramBuilder) (t : Token) : Nat :=
  match b.static_context_map with
  | some m => m t.context
  | none => t.context

/-- `HistogramBuilder::Add(const Token&)`: encode the value through the
token model, resolve the context, add the bucket to that context's
histogram. -/
def builderAddToken (b : HistogramBuilder) (t : Token) : Option HistogramBuilder :=
  let tok := (uintEncode t.value).1
  match b.static_context_map with
  | some m => builderAddSym b tok (m t.context)
  | none => builderAddSym b tok t.context

/-- C6.  `HistogramBuilder::Add(token)` bucketizes the token's value via
the token model and adds the bucket to the histogram of the resolved
context (context-map image when a map is present, raw context id
otherwise).  When the resolved context is within the configured context
count this always succeeds; when it is at or beyond the context count
the runtime check fails and the process aborts (modelled as `none`) —
there is no recovery or truncation. -/
theorem c6_builder_add_token (b : HistogramBuilder) (t : Token) :
    (resolveContext b t < b.histograms.length →
      builderAddToken b t = some ⟨b.static_context_map,
        b.histograms.set (resolveContext b t)
          ((b.histograms.getD (resolveContext b t) Histogram.init).add
            (uintEncode t.value).1)⟩) ∧
    (b.histograms.length ≤ resolveContext b t → builderAddToken b t = none) := by
  have key : builderAddToken b t =
      if resolveContext b t < b.histograms.length then
        some ⟨b.static_context_map,
          b.histograms.set (resolveContext b t)
            ((b.histograms.getD (resolveContext b t) Histogram.init).add
              (uintEncode t.value).1)⟩
      else none := by
    unfold builderAddToken builderAddSym resolveContext
    cases b.static_context_map with
    | none => rfl
    | some m => rfl
  constructor
  · intro hlt
    rw [key, if_pos hlt]
  · intro hge
    rw [key, if_neg (by omega)]

/-- Witness for C6: a builder with one context accepts a token in
context 0. -/
theorem c6_builder_add_token_witness :
    builderAddToken ⟨none, [Histogram.init]⟩ ⟨0, 0⟩
      = some ⟨none, [⟨[1, 0, 0, 0, 0, 0, 0, 0], 1⟩]⟩ := by
  have h := (c6_builder_add_token ⟨none, [Histogram.init]⟩ ⟨0, 0⟩).1 (by decide)
  rw [h]
  rfl

/-! ## Huffman tree construction

`CreateHuffmanTree` and `ConvertBitDepthsToSymbols` live in
`encoder/enc_huffman_tree.cc`, which is not among the excerpted sources;
the definitions below are modelled from the design document's
description of the canonical code builder. -/

/-- A node of the Huffman forest: its weight, the smallest original
symbol index below it (used for deterministic tie-breaking) and the
leaves below it together with their current depths. -/
structure HuffNode where
  weight : Nat
  minSym : Nat
  leaves : List (Nat × Nat)
deriving Repr

/-- Ordering of forest nodes: by weight, ties broken by the smallest
original symbol index. -/
def nodeLE (a b : HuffNode) : Bool :=
  a.weight < b.weight || (a.weight == b.weight && a.minSym ≤ b.minSym)

/-- Insert a node into a list sorted by `nodeLE`. -/
def insertNode (n : HuffNode) : List HuffNode → List HuffNode
  | [] => [n]
  | m :: ms => if nodeLE n m then n :: m :: ms else m :: insertNode n ms

/-- Merge two nodes: weights add, every leaf below gains one depth. -/
def mergeNodes (a b : HuffNode) : HuffNode :=
  ⟨a.weight + b.weight, min a.minSym b.minSym,
    (a.leaves ++ b.leaves).map fun p => (p.1, p.2 + 1)⟩

/-- Repeatedly merge the two lowest-weight nodes until one tree is
left; the fuel is the number of merges still needed. -/
def huffLoop : Nat → List HuffNode → List (Nat × Nat)
  | _, [] => []
  | _, [t] => t.leaves
  | 0, ts => ts.foldr (fun t acc => t.leaves ++ acc) []
  | fuel + 1, a :: b :: rest => huffLoop fuel (insertNode (mergeNodes a b) rest)

/-- The initial sorted forest: one leaf node per nonzero-count symbol. -/
def initNodes (counts : List Nat) : List HuffNode :=
  (counts.enum.filterMap fun p =>
    if p.2 = 0 then none else some ⟨p.2, p.1, [(p.1, 0)]⟩).foldr insertNode []

/-- Read the depth of every symbol out of the final leaf list (absent
symbols, i.e. zero-count ones, get depth 0). -/
def depthsFromLeaves (n : Nat) (leaves : List (Nat × Nat)) : List Nat :=
  (List.range n).map fun s => (List.lookup s leaves).getD 0

/-- Modelled from the spec: one unconstrained Huffman construction over
the nonzero-count symbols, with the single-live-symbol special case
(depth 1, never 0, so the stream stays self-delimiting). -/
def huffOnce (counts : List Nat) : List Nat :=
  match initNodes counts with
  | [] => List.replicate counts.length 0
  | [t] => (List.range counts.length).map fun s => if s = t.minSym then 1 else 0
  | a :: b :: rest => depthsFromLeaves counts.length (huffLoop (rest.length + 1) (a :: b :: rest))

/-- Modelled from the spec: the deterministic depth-limit enforcement.
Counts below the running clamp are raised to it and the tree is rebuilt,
doubling the clamp until every depth fits the limit (the standard
deterministic length-limiting retry). -/
def createHuffmanTreeGo (counts : List Nat) (limit : Nat) : Nat → Nat → List Nat
  | 0, _ => (huffOnce counts).map fun d => min d limit
  | fuel + 1, clim =>
    let clamped := counts.map fun c => if c = 0 then 0 else max c clim
    let ds := huffOnce clamped
    if ds.all fun d => decide (d ≤ limit) then ds
    else createHuffmanTreeGo counts limit fuel (2 * clim)

/-- Modelled from the spec: `CreateHuffmanTree` from
`encoder/enc_huffman_tree.cc` (file not among the excerpted sources):
length-limited optimal codeword lengths for a frequency table. -/
def createHuffmanTree (counts : List Nat) (limit : Nat) : List Nat :=
  createHuffmanTreeGo counts limit 64 1

/-- Number of symbols coded at depth `d` (depth 0 means unused and
consumes no code space). -/
def blCount (depths : List Nat) (d : Nat) : Nat :=
  (depths.filter fun x => decide (x = d)).length

/-- First canonical code value at each depth. -/
def firstCode (depths : List Nat) : Nat → Nat
  | 0 => 0
  | d + 1 => (firstCode depths d + if d = 0 then 0 else blCount depths d) * 2

/-- Modelled from the spec: `ConvertBitDepthsToSymbols` from
`encoder/enc_huffman_tree.cc` (file not among the excerpted sources):
canonical codeword assignment — symbols ordered by (depth, symbol
index), each symbol's code is its depth's first code plus the number of
earlier symbols of the same depth. -/
def convertBitDepthsToSymbols (depths : List Nat) : List Nat :=
  depths.enum.map fun p =>
    if p.2 = 0 then 0
    else firstCode depths p.2 + ((depths.take p.1).filter fun x => decide (x = p.2)).length

/-! ### Length lemmas for the Huffman model -/

theorem huffOnce_length (counts : List Nat) : (huffOnce counts).length = counts.length := by
  unfold huffOnce
  cases initNodes counts with
  | nil => simp
  | cons a ts =>
    cases ts with
    | nil => simp
    | cons b rest => simp [depthsFromLeaves]

theorem createHuffmanTreeGo_length (counts : List Nat) (limit fuel clim : Nat) :
    (createHuffmanTreeGo counts limit fuel clim).length = counts.length := by
  induction fuel generalizing clim with
  | zero => simp [createHuffmanTreeGo, huffOnce_length]
  | succ fuel ih =>
    unfold createHuffmanTreeGo
    by_cases hall :
        (huffOnce (counts.map fun c => if c = 0 then 0 else max c clim)).all
          fun d => decide (d ≤ limit)
    · simp only [hall, if_true]
      rw [huffOnce_length]
      simp
    · simp only [hall, if_false]
      exact ih (2 * clim)

theorem createHuffmanTree_length (counts : List Nat) (limit : Nat) :
    (createHuffmanTree counts limit).length = counts.length :=
  createHuffmanTreeGo_length counts limit 64 1

theorem convertBitDepthsToSymbols_length (depths : List Nat) :
    (convertBitDepthsToSymbols depths).length = depths.length := by
  unfold convertBitDepthsToSymbols
  simp [List.enum_length]

/-! ## The offline prefix-code extension tool -/

/-- `struct DynamicPrefixCode`: per-symbol depths and codewords. -/
structure DynamicPrefixCode where
  depths : List Nat
  bits : List Nat
deriving Repr, DecidableEq

/-- `kTreeLimit` in `ExtendPrefixCode`. -/
def kTreeLimit : Nat := 15

/-- The successful tail of `ExtendPrefixCode`: population counts
`2^(15 - depth)` for the original symbols and 1 for each added symbol,
then depths and codewords are regenerated from the counts. -/
def extendBody (pc : DynamicPrefixCode) (newAlphabetSize : Nat) : DynamicPrefixCode :=
  let alphabetSize := pc.depths.length
  let counts := (List.range newAlphabetSize).map fun i =>
    if i < alphabetSize then 2 ^ (kTreeLimit - pc.depths.getD i 0) else 0
  let counts2 := counts.enum.map fun p => if alphabetSize ≤ p.1 then 1 else p.2
  let depths := createHuffmanTree counts2 kTreeLimit
  ⟨depths, convertBitDepthsToSymbols depths⟩

/-- `ExtendPrefixCode(prefix_code, new_alphabet_size)`: fail (leaving
the code untouched) if the depth and codeword arrays disagree in length
or if the implied weights `2^(15 - depth)` do not sum to exactly
`2^15`; otherwise rebuild depths and codewords over the enlarged
alphabet.  The C++ mutates its by-reference argument and returns a
`bool`; the model returns the flag together with the final state. -/
def extendPrefixCode (pc : DynamicPrefixCode) (newAlphabetSize : Nat) :
    Bool × DynamicPrefixCode :=
  if pc.bits.length ≠ pc.depths.length then (false, pc)
  else if (pc.depths.map fun d => 2 ^ (kTreeLimit - d)).sum ≠ 2 ^ kTreeLimit then (false, pc)
  else (true, extendBody pc newAlphabetSize)

theorem extendBody_depths_length (pc : DynamicPrefixCode) (n : Nat) :
    (extendBody pc n).depths.length = n := by
  unfold extendBody
  rw [createHuffmanTree_length]
  simp [List.enum_length]

theorem extendBody_bits_length (pc : DynamicPrefixCode) (n : Nat) :
    (extendBody pc n).bits.length = n := by
  unfold extendBody
  rw [convertBitDepthsToSymbols_length, createHuffmanTree_length]
  simp [List.enum_length]

/-- C1 (counterexample).  The complete canonical code with depths
`[1, 1]` and codewords `[0, 1]` (weights `2^14 + 2^14 = 2^15`, so the
completeness check passes) extended to alphabet size 3: the call
succeeds, yet both the depth and the codeword of symbol 0 change, so a
successful `ExtendPrefixCode` call is *not* always
codeword-preserving, and no verification rejects such inputs. -/
theorem c1_preservation_counterexample :
    ((2 : Nat) ^ (kTreeLimit - 1) + 2 ^ (kTreeLimit - 1) = 2 ^ kTreeLimit) ∧
    (2 : Nat) < 3 ∧
    (extendPrefixCode ⟨[1, 1], [0, 1]⟩ 3).1 = true ∧
    (extendPrefixCode ⟨[1, 1], [0, 1]⟩ 3).2.depths.getD 0 0 ≠
      (⟨[1, 1], [0, 1]⟩ : DynamicPrefixCode).depths.getD 0 0 ∧
    (extendPrefixCode ⟨[1, 1], [0, 1]⟩ 3).2.bits.getD 0 0 ≠
      (⟨[1, 1], [0, 1]⟩ : DynamicPrefixCode).bits.getD 0 0 := by
  decide

/-- C1 (amended).  For a target size `A' > A`, `ExtendPrefixCode`
succeeds exactly when the two input arrays agree in length and the
implied weights `2^(15 - depth)` sum to exactly `2^15`; a successful
call rebuilds the code over the enlarged alphabet (both output arrays
have length `A'`).  The call performs no verification that the depths
or codewords of the original symbols are preserved, and they may
change. -/
theorem c1_extend_success_amended (pc : DynamicPrefixCode) (n : Nat)
    (_hn : pc.depths.length < n) :
    ((extendPrefixCode pc n).1 = true ↔
      pc.bits.length = pc.depths.length ∧
      (pc.depths.map fun d => 2 ^ (kTreeLimit - d)).sum = 2 ^ kTreeLimit) ∧
    ((extendPrefixCode pc n).1 = true →
      (extendPrefixCode pc n).2.depths.length = n ∧
      (extendPrefixCode pc n).2.bits.length = n) := by
  unfold extendPrefixCode
  by_cases h1 : pc.bits.length ≠ pc.depths.length
  · simp [h1]
  · by_cases h2 : (pc.depths.map fun d => 2 ^ (kTreeLimit - d)).sum ≠ 2 ^ kTreeLimit
    · simp [h1, h2]
    · simp only [h1, h2, if_false]
      refine ⟨by simp_all, fun _ => ⟨extendBody_depths_length pc n, extendBody_bits_length pc n⟩⟩

/-- Witness for the amended C1 at a concrete complete code. -/
theorem c1_extend_success_amended_witness :
    (extendPrefixCode ⟨[1, 1], [0, 1]⟩ 4).1 = true ∧
    (extendPrefixCode ⟨[1, 1], [0, 1]⟩ 4).2.depths.length = 4 := by
  have h := c1_extend_success_amended ⟨[1, 1], [0, 1]⟩ 4 (by decide)
  have hs : (extendPrefixCode ⟨[1, 1], [0, 1]⟩ 4).1 = true := h.1.mpr (by decide)
  exact ⟨hs, (h.2 hs).1⟩

/-- C7.  Mismatched depth/codeword array lengths make
`ExtendPrefixCode` abort construction immediately: it reports failure
with the code left exactly as it was — never silently truncated or
continued. -/
theorem c7_mismatched_lengths_abort (pc : DynamicPrefixCode) (n : Nat)
    (h : pc.bits.length ≠ pc.depths.length) :
    extendPrefixCode pc n = (false, pc) := by
  unfold extendPrefixCode
  simp [h]

/-- Witness for C7 at a concrete mismatched code. -/
theorem c7_mismatched_lengths_abort_witness :
    extendPrefixCode ⟨[1], [0, 0]⟩ 5 = (false, ⟨[1], [0, 0]⟩) :=
  c7_mismatched_lengths_abort ⟨[1], [0, 0]⟩ 5 (by decide)

/-- C10.  `ExtendPrefixCode` is atomic on failure: whenever it returns
`false` — mismatched array lengths, or implied weights that do not sum
to `2^15` — the prefix code is left completely unmodified, because
every failure return precedes any mutation of the structure. -/
theorem c10_failure_atomicity (pc : DynamicPrefixCode) (n : Nat)
    (h : (extendPrefixCode pc n).1 = false) :
    (extendPrefixCode pc n).2 = pc := by
  unfold extendPrefixCode at h ⊢
  by_cases h1 : pc.bits.length ≠ pc.depths.length
  · simp [h1]
  · by_cases h2 : (pc.depths.map fun d => 2 ^ (kTreeLimit - d)).sum ≠ 2 ^ kTreeLimit
    · simp [h1, h2]
    · simp [h1, h2] at h

/-- Witness for C10: a code failing the completeness check is returned
unchanged. -/
theorem c10_failure_atomicity_witness :
    (extendPrefixCode ⟨[1, 2], [0, 2]⟩ 4).2 = ⟨[1, 2], [0, 2]⟩ :=
  c10_failure_atomicity ⟨[1, 2], [0, 2]⟩ 4 (by decide)

/-! ## The tool's process surface (`main`, `GenerateNewPrefixCodes`) -/

/-- `enum PrefixCodeType`. -/
inductive PrefixCodeType where
  | DC
  | AC
deriving Repr, DecidableEq

/-- Modelled from the spec: the static tables of
`encoder/static_entropy_codes.h` (header not among the excerpted
sources) — the stored codes of the two families and the fixed alphabet
size they are defined over.  The tool's control flow is parametrised
over them. -/
structure StaticTables where
  kAlphabetSize : Nat
  dcCodes : List DynamicPrefixCode
  acCodes : List DynamicPrefixCode
deriving Repr, DecidableEq

/-- The loop of `GenerateNewPrefixCodes`: extend every stored code,
stopping with failure as soon as one extension fails. -/
def extendAll : List DynamicPrefixCode → Nat → Option (List DynamicPrefixCode)
  | [], _ => some []
  | c :: cs, n =>
    if (extendPrefixCode c n).1 then
      (extendAll cs n).map fun out => (extendPrefixCode c n).2 :: out
    else none

/-- `GenerateNewPrefixCodes(type, new_alphabet_size)`: pick the family,
extend every code of it, and on success output the extended table
(`OutputCodes` prints the family name and all codes); the text emitter
is opaque, so the output is modelled as the structured data printed. -/
def generateNewPrefixCodes (tables : StaticTables) (ty : PrefixCodeType) (n : Nat) :
    Option (String × List DynamicPrefixCode) :=
  let name := match ty with
    | .DC => "DC"
    | .AC => "AC"
  let codes := match ty with
    | .DC => tables.dcCodes
    | .AC => tables.acCodes
  (extendAll codes n).map fun out => (name, out)

/-- Is `c` a decimal digit (code points 48 to 57)? -/
def isDigitChar (c : Char) : Bool := decide (48 ≤ c.toNat) && decide (c.toNat ≤ 57)

/-- Decimal value of a digit string. -/
def digitsValue (cs : List Char) : Nat :=
  cs.foldl (fun acc c => 10 * acc + (c.toNat - 48)) 0

/-- Leading-digits parse used by the `std::stoi` model. -/
def stoiNatDigits (cs : List Char) : Option Nat :=
  let ds := cs.takeWhile isDigitChar
  if ds.length = 0 then none else some (digitsValue ds)

/-- Model of `std::stoi`: optional sign (code points 45 and 43)
followed by decimal digits; `none` models the
`std::invalid_argument`/`std::out_of_range` exceptions (which, being
uncaught in `main`, terminate the process with a failure status and a
runtime message on standard error).  Leading whitespace is not
modelled. -/
def stoiModel (s : String) : Option Int :=
  match s.data with
  | [] => none
  | c :: cs =>
    let body := if c.toNat = 45 ∨ c.toNat = 43 then cs else c :: cs
    match stoiNatDigits body with
    | none => none
    | some m =>
      let v : Int := if c.toNat = 45 then -(m : Int) else (m : Int)
      if v < -(2 ^ 31 : Int) ∨ (2 ^ 31 : Int) - 1 < v then none else some v

/-- The `int → size_t` conversion `size_t n = std::stoi(argv[2])`:
reduction modulo `2^64`. -/
def toSizeT (i : Int) : Nat := (i % (2 ^ 64 : Int)).toNat

/-- The observable outcome of one run of the tool: the exit status
(`true` = `EXIT_SUCCESS`), the table printed to standard output (if
any), and whether an error was reported on standard error. -/
structure ToolResult where
  exitSuccess : Bool
  stdoutTable : Option (String × List DynamicPrefixCode)
  stderrError : Bool
deriving Repr, DecidableEq

/-- The tail of `main` after the family has been parsed: parse the
size, require it to exceed the current alphabet size, generate. -/
def mainToolRun (tables : StaticTables) (ty : PrefixCodeType) (num : String) : ToolResult :=
  match stoiModel num with
  | none => ⟨false, none, true⟩
  | some i =>
    let n := toSizeT i
    if n ≤ tables.kAlphabetSize then ⟨false, none, true⟩
    else
      match generateNewPrefixCodes tables ty n with
      | some out => ⟨true, some out, false⟩
      | none => ⟨false, none, true⟩

/-- `main(argc, argv)`: exactly three arguments (program name
included), a family of `DC` or `AC`, then the size handling. -/
def mainTool (tables : StaticTables) (args : List String) : ToolResult :=
  if args.length ≠ 3 then ⟨false, none, true⟩
  else
    let fam := args.getD 1 ""
    let num := args.getD 2 ""
    if fam = "DC" then mainToolRun tables .DC num
    else if fam = "AC" then mainToolRun tables .AC num
    else ⟨false, none, true⟩

/-- The stored codes of a family named on the command line. -/
def familyCodes (tables : StaticTables) (fam : String) : List DynamicPrefixCode :=
  if fam = "DC" then tables.dcCodes else tables.acCodes

theorem extendAll_of_all_true (codes : List DynamicPrefixCode) (n : Nat)
    (h : ∀ c ∈ codes, (extendPrefixCode c n).1 = true) :
    extendAll codes n = some (codes.map fun c => (extendPrefixCode c n).2) := by
  induction codes with
  | nil => rfl
  | cons c cs ih =>
    have hc := h c (by simp)
    unfold extendAll
    rw [hc]
    simp only [if_true]
    rw [ih (fun x hx => h x (by simp [hx]))]
    rfl

theorem extendAll_of_exists_false (codes : List DynamicPrefixCode) (n : Nat)
    (h : ∃ c ∈ codes, (extendPrefixCode c n).1 = false) :
    extendAll codes n = none := by
  induction codes with
  | nil => simp at h
  | cons c cs ih =>
    unfold extendAll
    rcases h with ⟨x, hx, hfail⟩
    rcases List.mem_cons.mp hx with hx | hx
    · subst hx
      rw [hfail]
      rfl
    · by_cases hc : (extendPrefixCode c n).1
      · rw [hc]
        simp only [if_true]
        rw [ih ⟨x, hx, hfail⟩]
        rfl
      · rw [Bool.not_eq_true] at hc
        rw [hc]
        rfl

/-- C8.  Exit behaviour of the offline tool: with a valid family
identifier (`DC` or `AC`) and a parsed target size strictly greater
than the current alphabet size, if every stored code of that family
extends successfully the tool prints the extended table to standard
output and exits successfully; malformed argument lists, unknown
families, unparsable sizes, sizes not larger than the current alphabet
size, and failed extensions all report an error on standard error and
exit with a failure status (printing nothing to standard output). -/
theorem c8_tool_exit_behavior (tables : StaticTables) (args : List String) :
    (args.length ≠ 3 → mainTool tables args = ⟨false, none, true⟩) ∧
    (∀ prog fam num, args = [prog, fam, num] → fam ≠ "DC" → fam ≠ "AC" →
      mainTool tables args = ⟨false, none, true⟩) ∧
    (∀ prog num, (args = [prog, "DC", num] ∨ args = [prog, "AC", num]) →
      stoiModel num = none →
      mainTool tables args = ⟨false, none, true⟩) ∧
    (∀ prog num i, (args = [prog, "DC", num] ∨ args = [prog, "AC", num]) →
      stoiModel num = some i → toSizeT i ≤ tables.kAlphabetSize →
      mainTool tables args = ⟨false, none, true⟩) ∧
    (∀ prog fam num i, (fam = "DC" ∨ fam = "AC") → args = [prog, fam, num] →
      stoiModel num = some i → tables.kAlphabetSize < toSizeT i →
      ((∀ c ∈ familyCodes tables fam, (extendPrefixCode c (toSizeT i)).1 = true) →
        mainTool tables args = ⟨true,
          some (fam, (familyCodes tables fam).map fun c => (extendPrefixCode c (toSizeT i)).2),
          false⟩) ∧
      ((∃ c ∈ familyCodes tables fam, (extendPrefixCode c (toSizeT i)).1 = false) →
        mainTool tables args = ⟨false, none, true⟩)) := by
  refine ⟨?_, ?_, ?_, ?_, ?_⟩
  · intro hlen
    unfold mainTool
    simp [hlen]
  · intro prog fam num hargs hdc hac
    subst hargs
    unfold mainTool
    simp [hdc, hac]
  · intro prog num hargs hstoi
    rcases hargs with hargs | hargs <;>
      (subst hargs; unfold mainTool mainToolRun; simp [hstoi])
  · intro prog num i hargs hstoi hle
    rcases hargs with hargs | hargs <;>
      (subst hargs; unfold mainTool mainToolRun; simp [hstoi, hle])
  · intro prog fam num i hfam hargs hstoi hgt
    constructor
    · intro hall
      have hext := extendAll_of_all_true (familyCodes tables fam) (toSizeT i) hall
      rcases hfam with hfam | hfam <;>
        (subst hfam; subst hargs;
         simp [familyCodes] at hext;
         unfold mainTool mainToolRun generateNewPrefixCodes;
         simp [hstoi, Nat.not_le.mpr hgt, hext, familyCodes])
    · intro hex
      have hext := extendAll_of_exists_false (familyCodes tables fam) (toSizeT i) hex
      rcases hfam with hfam | hfam <;>
        (subst hfam; subst hargs;
         simp [familyCodes] at hext;
         unfold mainTool mainToolRun generateNewPrefixCodes;
         simp [hstoi, Nat.not_le.mpr hgt, hext, familyCodes])

/-- Witness for C8: a one-code DC table over alphabet size 2 extended
to 3 prints the extended table and exits successfully. -/
theorem c8_tool_exit_behavior_witness :
    mainTool ⟨2, [⟨[1, 1], [0, 1]⟩], []⟩ ["tool", "DC", "3"]
      = ⟨true, some ("DC", [⟨[2, 1, 2], [2, 0, 3]⟩]), false⟩ := by
  have h := ((c8_tool_exit_behavior ⟨2, [⟨[1, 1], [0, 1]⟩], []⟩
      ["tool", "DC", "3"]).2.2.2.2 "tool" "DC" "3" 3
      (Or.inl rfl) rfl (by decide) (by decide)).1 (by decide)
  rw [h]
  rfl

/-! ## The entropy-writer pipeline (enc_ans.h)

`WriteHistograms` and `WriteTokens` are declared in `encoder/enc_ans.h`
but their implementation file is not among the excerpted sources; the
emission below is modelled from the design document's §4.5 (prefix-code
mode).  The bit-writer collaborator is opaque, so the stream is
modelled as the list of `(bit count, bits)` pairs appended to it. -/

/-- Build one histogram per context from a token sequence (the
`BuildHistograms` driver over `HistogramBuilder`); `none` models an
aborted run (a token resolved outside the configured contexts). -/
def buildHistogramsFromTokens (cmap : Option (Nat → Nat)) (numContexts : Nat)
    (tokens : List Token) : Option (List Histogram) :=
  (tokens.foldlM builderAddToken
    ⟨cmap, List.replicate numContexts Histogram.init⟩).map HistogramBuilder.histograms

/-- Modelled from the spec: the per-context code table derived from a
histogram — length-limited depths and canonical codewords. -/
def buildPrefixCodeModel (h : Histogram) : List Nat × List Nat :=
  let depths := createHuffmanTree h.data kTreeLimit
  (depths, convertBitDepthsToSymbols depths)

/-- Modelled from the spec: `WriteHistograms` — a compact description
of every context's code table, emitted context by context (each depth
in a fixed-width field, enough for a decoder to rebuild the table). -/
def writeHistogramsModel (hs : List Histogram) : List (Nat × Nat) :=
  hs.foldl (fun acc h => acc ++ (buildPrefixCodeModel h).1.map fun d => (5, d)) []

/-- Modelled from the spec: `WriteTokens` — for each token in input
order, resolve its context, bucketize the value, emit the symbol's
codeword bits and then the raw extra bits. -/
def writeTokensModel (tokens : List Token) (codes : List (List Nat × List Nat))
    (cmap : Option (Nat → Nat)) : List (Nat × Nat) :=
  tokens.foldl (fun acc t =>
    let e := uintEncode t.value
    let ctx := match cmap with
      | some m => m t.context
      | none => t.context
    let code := codes.getD ctx ([], [])
    acc ++ [(code.1.getD e.1 0, code.2.getD e.1 0), (e.2.1, e.2.2)]) []

/-- The full entropy-encoding pipeline on one unit: histogram
construction, then the histogram descriptions, then the coded token
stream. -/
def encodePipeline (cmap : Option (Nat → Nat)) (numContexts : Nat)
    (tokens : List Token) : Option (List (Nat × Nat)) :=
  (buildHistogramsFromTokens cmap numContexts tokens).map fun hs =>
    writeHistogramsModel hs ++ writeTokensModel tokens (hs.map buildPrefixCodeModel) cmap

/-- C9.  The pipeline is deterministic: it is a pure function of the
token sequence and the configuration, so running histogram construction
and `WriteHistograms`/`WriteTokens` twice on the same inputs produces
identical output streams (two-run equality of the embedded encoder). -/
theorem c9_pipeline_deterministic (cmap : Option (Nat → Nat)) (numContexts : Nat)
    (tokens : List Token) :
    encodePipeline cmap numContexts tokens = encodePipeline cmap numContexts tokens := rfl

end Jxl
